import Mathlib

/-!
Verification of the shadow engine of the qgis-marche-a-lombre repository.

The Python sources (src/shadow_calculator.py, src/trail_point.py) are embedded
shallowly: machine floats become real numbers, numpy arrays become lists or
functions, and the Bresenham `while True` loop becomes a fuel-indexed
recursion whose fuel is proved sufficient.  Python `int(...)` applied to a
float is truncation toward zero, modelled by `intTrunc`.
-/

namespace Marche

open Real

/-- Python `int(r)` on a float: truncation toward zero. -/
noncomputable def intTrunc (r : ℝ) : ℤ :=
  if 0 ≤ r then ⌊r⌋ else ⌈r⌉

theorem intTrunc_intCast (n : ℤ) : intTrunc (n : ℝ) = n := by
  unfold intTrunc
  split <;> simp

theorem intTrunc_int_add (n : ℤ) (r : ℝ) :
    intTrunc ((n : ℝ) + r) = n + ⌊r⌋ ∨ intTrunc ((n : ℝ) + r) = n + ⌈r⌉ := by
  unfold intTrunc
  split
  · exact Or.inl (by rw [add_comm, Int.floor_add_int]; ring)
  · exact Or.inr (by rw [add_comm, Int.ceil_add_int]; ring)

/-- If the real offset has absolute value at most `m`, the truncated sum moves
the integer by at most `m`. -/
theorem abs_intTrunc_int_add_le (n m : ℤ) (r : ℝ) (hm : |r| ≤ (m : ℝ)) :
    |intTrunc ((n : ℝ) + r) - n| ≤ m := by
  have h1 : (-(m : ℝ)) ≤ r := by
    have := abs_le.mp hm
    linarith [this.1]
  have h2 : r ≤ (m : ℝ) := (abs_le.mp hm).2
  have hfl : -m ≤ ⌊r⌋ ∧ ⌊r⌋ ≤ m := by
    constructor
    · exact Int.le_floor.mpr (by exact_mod_cast h1)
    · have : ⌊r⌋ ≤ ⌊(m : ℝ)⌋ := Int.floor_le_floor h2
      simpa using this
  have hce : -m ≤ ⌈r⌉ ∧ ⌈r⌉ ≤ m := by
    constructor
    · have h1' : (((-m : ℤ) : ℝ)) ≤ r := by push_cast; linarith
      have : ⌈((-m : ℤ) : ℝ)⌉ ≤ ⌈r⌉ := Int.ceil_le_ceil h1'
      simpa [Int.ceil_neg] using this
    · exact Int.ceil_le.mpr (by exact_mod_cast h2)
  rcases intTrunc_int_add n r with h | h <;> rw [h] <;> rw [abs_le] <;> omega

/-- Python float modulo `x % m` (for `m > 0`): `x - m * ⌊x / m⌋`. -/
noncomputable def pymod (x m : ℝ) : ℝ := x - m * ⌊x / m⌋

theorem pymod_nonneg_lt (x m : ℝ) (hm : 0 < m) :
    0 ≤ pymod x m ∧ pymod x m < m := by
  unfold pymod
  have h1 : (⌊x / m⌋ : ℝ) ≤ x / m := Int.floor_le _
  have h2 : x / m < ⌊x / m⌋ + 1 := Int.lt_floor_add_one _
  constructor
  · have := mul_le_mul_of_nonneg_left h1 hm.le
    rw [mul_div_cancel₀ _ hm.ne'] at this
    linarith
  · have := mul_lt_mul_of_pos_left h2 hm
    rw [mul_div_cancel₀ _ hm.ne'] at this
    nlinarith

/-- `math.atan2 y x`: the argument of the complex number `x + y i`,
in `(-π, π]`. -/
noncomputable def atan2 (y x : ℝ) : ℝ := Complex.arg (x + y * Complex.I)

/-! ## Bresenham horizon trace (`ShadowCalculator.draw_bresenham_line`) -/

/-- The endpoint computed at the top of `draw_bresenham_line`:
`x1 = int(x0 + max_dist_pixels*sin(azimuth))`,
`y1 = int(y0 - max_dist_pixels*cos(azimuth))`. -/
noncomputable def bresEndpoint (x0 y0 : ℤ) (max_dist_pixels azimuth : ℝ) : ℤ × ℤ :=
  (intTrunc ((x0 : ℝ) + max_dist_pixels * Real.sin azimuth),
   intTrunc ((y0 : ℝ) - max_dist_pixels * Real.cos azimuth))

/-- The `while True` body of `draw_bresenham_line`, with explicit fuel.
State: current pixel `(x, y)` and error term `D`; both step tests use the
value `2*D` computed before either update, exactly as in the source. -/
def bresLoop (x1 y1 dx dy sx sy rows cols : ℤ) :
    ℕ → ℤ → ℤ → ℤ → List (ℤ × ℤ)
  | 0, _, _, _ => []
  | fuel + 1, x, y, D =>
    if 0 ≤ x ∧ x < cols ∧ 0 ≤ y ∧ y < rows then
      (x, y) ::
        (if x = x1 ∧ y = y1 then []
         else
           bresLoop x1 y1 dx dy sx sy rows cols fuel
             (if -dy < 2 * D then x + sx else x)
             (if 2 * D < dx then y + sy else y)
             ((if -dy < 2 * D then D - dy else D) + (if 2 * D < dx then dx else 0)))
    else []

/-- `ShadowCalculator.draw_bresenham_line`.  The fuel `dx + dy + 1` is an
upper bound on the number of loop iterations (proved below: the loop always
terminates within `max dx dy + 1` iterations, and the result is independent
of any fuel at least that large). -/
noncomputable def draw_bresenham_line (x0 y0 : ℤ) (max_dist_pixels azimuth : ℝ)
    (rows cols : ℤ) : List (ℤ × ℤ) :=
  let ep := bresEndpoint x0 y0 max_dist_pixels azimuth
  let dx := |ep.1 - x0|
  let dy := |ep.2 - y0|
  let sx : ℤ := if x0 < ep.1 then 1 else -1
  let sy : ℤ := if y0 < ep.2 then 1 else -1
  bresLoop ep.1 ep.2 dx dy sx sy rows cols (dx + dy + 1).toNat x0 y0 (dx - dy)

/-- Every pixel kept by the loop passed the bounds test. -/
theorem bresLoop_mem_bounds (x1 y1 dx dy sx sy rows cols : ℤ) :
    ∀ (fuel : ℕ) (x y D : ℤ) (p : ℤ × ℤ),
      p ∈ bresLoop x1 y1 dx dy sx sy rows cols fuel x y D →
      0 ≤ p.1 ∧ p.1 < cols ∧ 0 ≤ p.2 ∧ p.2 < rows := by
  intro fuel
  induction fuel with
  | zero => intro x y D p hp; simp [bresLoop] at hp
  | succ n ih =>
    intro x y D p hp
    rw [bresLoop] at hp
    split at hp
    · rename_i hin
      rcases List.mem_cons.mp hp with h | h
      · subst h; exact hin
      · split at h
        · simp at h
        · exact ih _ _ _ _ h
    · simp at hp

/-- If the start pixel is out of bounds the loop appends nothing. -/
theorem bresLoop_out_of_bounds (x1 y1 dx dy sx sy rows cols : ℤ)
    (fuel : ℕ) (x y D : ℤ)
    (h : ¬(0 ≤ x ∧ x < cols ∧ 0 ≤ y ∧ y < rows)) :
    bresLoop x1 y1 dx dy sx sy rows cols fuel x y D = [] := by
  cases fuel with
  | zero => rfl
  | succ n => rw [bresLoop]; exact if_neg h

/-! ### Termination and length of the Bresenham loop

Throughout, for current pixel `(x, y)` write `u = sx*(x1-x)` and
`v = sy*(y1-y)` for the remaining signed distances to the endpoint.  The loop
maintains `D = dx - dy + u*dy - v*dx` together with the band invariant
`-dy < 2*D` when `dy ≤ dx` (the x-axis drives) or `2*D < dx` when `dx < dy`
(the y-axis drives); the driving coordinate then steps on every iteration and
never overshoots, so the loop appends at most `max dx dy + 1` pixels. -/

theorem bres_major_v_le_u (dx dy u v D : ℤ) (hdx : 0 ≤ dx) (hdy : 0 ≤ dy)
    (hu : 0 ≤ u) (hv : 0 ≤ v) (hD : D = dx - dy + u * dy - v * dx)
    (hband : -dy < 2 * D) (hxy : dy ≤ dx) : v ≤ u := by
  by_contra hc
  push_neg at hc
  have h1 : u + 1 ≤ v := hc
  nlinarith [mul_le_mul_of_nonneg_right h1 hdx, mul_nonneg hu (sub_nonneg.mpr hxy)]

theorem bres_minor_u_le_v (dx dy u v D : ℤ) (hdx : 0 ≤ dx) (hdy : 0 ≤ dy)
    (hu : 0 ≤ u) (hv : 0 ≤ v) (hD : D = dx - dy + u * dy - v * dx)
    (hband : 2 * D < dx) (hxy : dx < dy) : u ≤ v := by
  by_contra hc
  push_neg at hc
  have h1 : v + 1 ≤ u := hc
  nlinarith [mul_le_mul_of_nonneg_right h1 hdy, mul_nonneg hv (sub_nonneg.mpr hxy.le)]

theorem bres_major_u_pos (dx dy u v D : ℤ) (hdx : 0 ≤ dx) (hdy : 0 ≤ dy)
    (hu : 0 ≤ u) (hv : 0 ≤ v) (hD : D = dx - dy + u * dy - v * dx)
    (hband : -dy < 2 * D) (hxy : dy ≤ dx) (hnb : ¬(u = 0 ∧ v = 0)) : 1 ≤ u := by
  rcases lt_or_le 0 u with h | h
  · exact h
  · have hu0 : u = 0 := le_antisymm h hu
    have hv1 : 1 ≤ v := by
      rcases lt_or_le 0 v with h' | h'
      · exact h'
      · exact absurd ⟨hu0, le_antisymm h' hv⟩ hnb
    exfalso
    nlinarith [le_mul_of_one_le_left hdx hv1]

theorem bres_minor_v_pos (dx dy u v D : ℤ) (hdx : 0 ≤ dx) (hdy : 0 ≤ dy)
    (hu : 0 ≤ u) (hv : 0 ≤ v) (hD : D = dx - dy + u * dy - v * dx)
    (hband : 2 * D < dx) (hxy : dx < dy) (hnb : ¬(u = 0 ∧ v = 0)) : 1 ≤ v := by
  rcases lt_or_le 0 v with h | h
  · exact h
  · have hv0 : v = 0 := le_antisymm h hv
    have hu1 : 1 ≤ u := by
      rcases lt_or_le 0 u with h' | h'
      · exact h'
      · exact absurd ⟨le_antisymm h' hu, hv0⟩ hnb
    exfalso
    nlinarith [le_mul_of_one_le_left hdy hu1]

theorem bres_major_y_blocked (dx dy u v D : ℤ) (hdx : 0 ≤ dx) (hdy : 0 ≤ dy)
    (hu1 : 1 ≤ u) (hv0 : v = 0) (hD : D = dx - dy + u * dy - v * dx) :
    ¬(2 * D < dx) := by
  subst hv0
  push_neg
  nlinarith [mul_nonneg (sub_nonneg.mpr hu1) hdy]

theorem bres_minor_x_blocked (dx dy u v D : ℤ) (hdx : 0 ≤ dx) (hdy : 0 ≤ dy)
    (hu0 : u = 0) (hv1 : 1 ≤ v) (hD : D = dx - dy + u * dy - v * dx) :
    ¬(-dy < 2 * D) := by
  subst hu0
  push_neg
  nlinarith [le_mul_of_one_le_left hdx hv1]

/-- Band preservation in the x-driven case when only x steps (`2*D ≥ dx`). -/
theorem bres_major_band_xonly (dx dy u v D : ℤ) (hdx : 0 ≤ dx) (hdy : 0 ≤ dy)
    (hu : 0 ≤ u) (hv : 0 ≤ v) (hD : D = dx - dy + u * dy - v * dx)
    (hband : -dy < 2 * D) (hxy : dy ≤ dx) (hge : ¬(2 * D < dx)) :
    -dy < 2 * (D - dy) := by
  push_neg at hge
  rcases lt_or_eq_of_le hge with hlt | heq
  · -- 2*D ≥ dx + 1 ≥ dy + 1
    linarith
  · -- 2*D = dx exactly: only possible when dy < dx (parity excludes dx = dy)
    rcases lt_or_eq_of_le hxy with hlt' | heq'
    · linarith
    · -- dx = dy: then dy * (2*(u - v) - 1) = 0, forcing dy = 0 and a
      -- contradiction with the band invariant
      exfalso
      rw [← heq'] at hD heq
      have key : dy * (2 * (u - v) - 1) = 0 := by
        linear_combination (-2) * hD - heq
      rcases mul_eq_zero.mp key with h0 | h0
      · rw [h0] at heq hband
        linarith
      · omega

/-- One step of the loop from a live state (in bounds, endpoint not reached)
preserves the invariant and decreases the driving coordinate. -/
theorem bres_step (x1 y1 dx dy sx sy : ℤ) (hdx : 0 ≤ dx) (hdy : 0 ≤ dy)
    (hsx : sx = 1 ∨ sx = -1) (hsy : sy = 1 ∨ sy = -1) (x y D : ℤ)
    (hD : D = dx - dy + sx * (x1 - x) * dy - sy * (y1 - y) * dx)
    (hu : 0 ≤ sx * (x1 - x)) (hv : 0 ≤ sy * (y1 - y))
    (hband : (dy ≤ dx ∧ -dy < 2 * D) ∨ (dx < dy ∧ 2 * D < dx))
    (hnb : ¬(x = x1 ∧ y = y1)) :
    let x' := if -dy < 2 * D then x + sx else x
    let y' := if 2 * D < dx then y + sy else y
    let D' := (if -dy < 2 * D then D - dy else D) + (if 2 * D < dx then dx else 0)
    D' = dx - dy + sx * (x1 - x') * dy - sy * (y1 - y') * dx ∧
    0 ≤ sx * (x1 - x') ∧ 0 ≤ sy * (y1 - y') ∧
    ((dy ≤ dx ∧ -dy < 2 * D') ∨ (dx < dy ∧ 2 * D' < dx)) ∧
    max (sx * (x1 - x')) (sy * (y1 - y')) + 1 ≤ max (sx * (x1 - x)) (sy * (y1 - y)) := by
  intro x' y' D'
  set u := sx * (x1 - x) with hu_def
  set v := sy * (y1 - y) with hv_def
  have hsxne : sx ≠ 0 := by rcases hsx with h | h <;> rw [h] <;> norm_num
  have hsyne : sy ≠ 0 := by rcases hsy with h | h <;> rw [h] <;> norm_num
  have hnb' : ¬(u = 0 ∧ v = 0) := by
    rintro ⟨h1, h2⟩
    rw [hu_def, mul_eq_zero] at h1
    rw [hv_def, mul_eq_zero] at h2
    rcases h1 with h1 | h1
    · exact hsxne h1
    rcases h2 with h2 | h2
    · exact hsyne h2
    exact hnb ⟨by omega, by omega⟩
  rcases hband with ⟨hxy, hb⟩ | ⟨hxy, hb⟩
  · -- x-driven case: x always steps
    have hu1 : 1 ≤ u := bres_major_u_pos dx dy u v D hdx hdy hu hv hD hb hxy hnb'
    have hx' : x' = x + sx := if_pos hb
    have hux' : sx * (x1 - x') = u - 1 := by
      rw [hx', hu_def]; rcases hsx with h | h <;> rw [h] <;> ring
    by_cases hyc : 2 * D < dx
    · -- both coordinates step
      have hy' : y' = y + sy := if_pos hyc
      have hvy' : sy * (y1 - y') = v - 1 := by
        rw [hy', hv_def]; rcases hsy with h | h <;> rw [h] <;> ring
      have hv1 : 1 ≤ v := by
        rcases lt_or_le 0 v with h | h
        · exact h
        · exact absurd hyc (bres_major_y_blocked dx dy u v D hdx hdy hu1
            (le_antisymm h hv) hD)
      have hD' : D' = D - dy + dx := by simp [D', if_pos hb, if_pos hyc]
      have hDinv : D' = dx - dy + sx * (x1 - x') * dy - sy * (y1 - y') * dx := by
        rw [hD', hux', hvy', hD]; ring
      have hband' : -dy < 2 * D' := by rw [hD']; linarith
      refine ⟨hDinv, by rw [hux']; omega, by rw [hvy']; omega,
        Or.inl ⟨hxy, hband'⟩, ?_⟩
      have hvle : v - 1 ≤ u - 1 := by
        have := bres_major_v_le_u dx dy (u - 1) (v - 1) D' hdx hdy (by omega)
          (by omega) (by rw [hDinv, hux', hvy']) hband' hxy
        omega
      rw [hux', hvy']
      have h1 : max (u - 1) (v - 1) = u - 1 := max_eq_left hvle
      have h2 : u ≤ max u v := le_max_left u v
      omega
    · -- only x steps
      have hy' : y' = y := if_neg hyc
      have hvy' : sy * (y1 - y') = v := by rw [hy', hv_def]
      have hD' : D' = D - dy := by simp [D', if_pos hb, if_neg hyc]
      have hDinv : D' = dx - dy + sx * (x1 - x') * dy - sy * (y1 - y') * dx := by
        rw [hD', hux', hvy', hD]; ring
      have hband' : -dy < 2 * D' := by
        rw [hD']
        exact bres_major_band_xonly dx dy u v D hdx hdy hu hv hD hb hxy hyc
      refine ⟨hDinv, by rw [hux']; omega, by rw [hvy']; exact hv,
        Or.inl ⟨hxy, hband'⟩, ?_⟩
      have hvle : v ≤ u - 1 := by
        have := bres_major_v_le_u dx dy (u - 1) v D' hdx hdy (by omega) hv
          (by rw [hDinv, hux', hvy']) hband' hxy
        omega
      rw [hux', hvy']
      have h1 : max (u - 1) v = u - 1 := max_eq_left hvle
      have h2 : u ≤ max u v := le_max_left u v
      omega
  · -- y-driven case: y always steps
    have hv1 : 1 ≤ v := bres_minor_v_pos dx dy u v D hdx hdy hu hv hD hb hxy hnb'
    have hy' : y' = y + sy := if_pos hb
    have hvy' : sy * (y1 - y') = v - 1 := by
      rw [hy', hv_def]; rcases hsy with h | h <;> rw [h] <;> ring
    by_cases hxc : -dy < 2 * D
    · -- both coordinates step
      have hx' : x' = x + sx := if_pos hxc
      have hux' : sx * (x1 - x') = u - 1 := by
        rw [hx', hu_def]; rcases hsx with h | h <;> rw [h] <;> ring
      have hu1 : 1 ≤ u := by
        rcases lt_or_le 0 u with h | h
        · exact h
        · exact absurd hxc (bres_minor_x_blocked dx dy u v D hdx hdy
            (le_antisymm h hu) hv1 hD)
      have hD' : D' = D - dy + dx := by simp [D', if_pos hxc, if_pos hb]
      have hDinv : D' = dx - dy + sx * (x1 - x') * dy - sy * (y1 - y') * dx := by
        rw [hD', hux', hvy', hD]; ring
      have hband' : 2 * D' < dx := by rw [hD']; linarith
      refine ⟨hDinv, by rw [hux']; omega, by rw [hvy']; omega,
        Or.inr ⟨hxy, hband'⟩, ?_⟩
      have hule : u - 1 ≤ v - 1 := by
        have := bres_minor_u_le_v dx dy (u - 1) (v - 1) D' hdx hdy (by omega)
          (by omega) (by rw [hDinv, hux', hvy']) hband' hxy
        omega
      rw [hux', hvy']
      have h1 : max (u - 1) (v - 1) = v - 1 := max_eq_right hule
      have h2 : v ≤ max u v := le_max_right u v
      omega
    · -- only y steps
      have hx' : x' = x := if_neg hxc
      have hux' : sx * (x1 - x') = u := by rw [hx', hu_def]
      have hD' : D' = D + dx := by simp [D', if_neg hxc, if_pos hb]
      have hDinv : D' = dx - dy + sx * (x1 - x') * dy - sy * (y1 - y') * dx := by
        rw [hD', hux', hvy', hD]; ring
      have hband' : 2 * D' < dx := by
        push_neg at hxc
        rw [hD']; linarith
      refine ⟨hDinv, by rw [hux']; exact hu, by rw [hvy']; omega,
        Or.inr ⟨hxy, hband'⟩, ?_⟩
      have hule : u ≤ v - 1 := by
        have := bres_minor_u_le_v dx dy u (v - 1) D' hdx hdy hu (by omega)
          (by rw [hDinv, hux', hvy']) hband' hxy
        omega
      rw [hux', hvy']
      have h1 : max u (v - 1) = v - 1 := max_eq_right hule
      have h2 : v ≤ max u v := le_max_right u v
      omega

/-- The loop appends at most `max u v + 1` pixels from any live state. -/
theorem bresLoop_length_le (x1 y1 dx dy sx sy rows cols : ℤ)
    (hdx : 0 ≤ dx) (hdy : 0 ≤ dy)
    (hsx : sx = 1 ∨ sx = -1) (hsy : sy = 1 ∨ sy = -1) :
    ∀ (fuel : ℕ) (x y D : ℤ),
      D = dx - dy + sx * (x1 - x) * dy - sy * (y1 - y) * dx →
      0 ≤ sx * (x1 - x) → 0 ≤ sy * (y1 - y) →
      ((dy ≤ dx ∧ -dy < 2 * D) ∨ (dx < dy ∧ 2 * D < dx)) →
      ((bresLoop x1 y1 dx dy sx sy rows cols fuel x y D).length : ℤ) ≤
        max (sx * (x1 - x)) (sy * (y1 - y)) + 1 := by
  intro fuel
  induction fuel with
  | zero =>
    intro x y D _ hu hv _
    simp only [bresLoop, List.length_nil, Int.ofNat_zero]
    have : (0 : ℤ) ≤ max (sx * (x1 - x)) (sy * (y1 - y)) := le_max_of_le_left hu
    linarith
  | succ n ih =>
    intro x y D hD hu hv hband
    rw [bresLoop]
    by_cases hin : 0 ≤ x ∧ x < cols ∧ 0 ≤ y ∧ y < rows
    · rw [if_pos hin]
      by_cases hend : x = x1 ∧ y = y1
      · rw [if_pos hend]
        simp only [List.length_cons, List.length_nil]
        have : (0 : ℤ) ≤ max (sx * (x1 - x)) (sy * (y1 - y)) := le_max_of_le_left hu
        push_cast
        linarith
      · rw [if_neg hend]
        obtain ⟨hDinv, hu', hv', hband', hmax⟩ :=
          bres_step x1 y1 dx dy sx sy hdx hdy hsx hsy x y D hD hu hv hband hend
        have hrec := ih _ _ _ hDinv hu' hv' hband'
        simp only [List.length_cons]
        push_cast
        push_cast at hrec
        linarith
    · rw [if_neg hin]
      simp only [List.length_nil]
      have : (0 : ℤ) ≤ max (sx * (x1 - x)) (sy * (y1 - y)) := le_max_of_le_left hu
      push_cast
      linarith

/-- From a live state the loop result does not depend on the fuel, as soon as
the fuel is at least `max u v + 1`: the loop genuinely terminates. -/
theorem bresLoop_fuel_irrelevant (x1 y1 dx dy sx sy rows cols : ℤ)
    (hdx : 0 ≤ dx) (hdy : 0 ≤ dy)
    (hsx : sx = 1 ∨ sx = -1) (hsy : sy = 1 ∨ sy = -1) :
    ∀ (f : ℕ) (x y D : ℤ) (g : ℕ),
      D = dx - dy + sx * (x1 - x) * dy - sy * (y1 - y) * dx →
      0 ≤ sx * (x1 - x) → 0 ≤ sy * (y1 - y) →
      ((dy ≤ dx ∧ -dy < 2 * D) ∨ (dx < dy ∧ 2 * D < dx)) →
      max (sx * (x1 - x)) (sy * (y1 - y)) + 1 ≤ (f : ℤ) →
      max (sx * (x1 - x)) (sy * (y1 - y)) + 1 ≤ (g : ℤ) →
      bresLoop x1 y1 dx dy sx sy rows cols f x y D =
        bresLoop x1 y1 dx dy sx sy rows cols g x y D := by
  intro f
  induction f with
  | zero =>
    intro x y D g _ hu _ _ hf _
    exfalso
    have : (0 : ℤ) ≤ max (sx * (x1 - x)) (sy * (y1 - y)) := le_max_of_le_left hu
    push_cast at hf
    linarith
  | succ n ih =>
    intro x y D g hD hu hv hband hf hg
    cases g with
    | zero =>
      exfalso
      have : (0 : ℤ) ≤ max (sx * (x1 - x)) (sy * (y1 - y)) := le_max_of_le_left hu
      push_cast at hg
      linarith
    | succ m =>
      rw [bresLoop, bresLoop]
      by_cases hin : 0 ≤ x ∧ x < cols ∧ 0 ≤ y ∧ y < rows
      · rw [if_pos hin, if_pos hin]
        by_cases hend : x = x1 ∧ y = y1
        · rw [if_pos hend, if_pos hend]
        · rw [if_neg hend, if_neg hend]
          obtain ⟨hDinv, hu', hv', hband', hmax⟩ :=
            bres_step x1 y1 dx dy sx sy hdx hdy hsx hsy x y D hD hu hv hband hend
          have hn : max (sx * (x1 - (if -dy < 2 * D then x + sx else x)))
              (sy * (y1 - (if 2 * D < dx then y + sy else y))) + 1 ≤ (n : ℤ) := by
            push_cast at hf ⊢
            linarith
          have hm : max (sx * (x1 - (if -dy < 2 * D then x + sx else x)))
              (sy * (y1 - (if 2 * D < dx then y + sy else y))) + 1 ≤ (m : ℤ) := by
            push_cast at hg ⊢
            linarith
          rw [ih _ _ _ m hDinv hu' hv' hband' hn hm]
      · rw [if_neg hin, if_neg hin]

theorem draw_bresenham_line_mem_bounds (x0 y0 : ℤ) (d az : ℝ) (rows cols : ℤ)
    (p : ℤ × ℤ) (hp : p ∈ draw_bresenham_line x0 y0 d az rows cols) :
    0 ≤ p.1 ∧ p.1 < cols ∧ 0 ≤ p.2 ∧ p.2 < rows := by
  unfold draw_bresenham_line at hp
  exact bresLoop_mem_bounds _ _ _ _ _ _ rows cols _ _ _ _ _ hp

theorem draw_bresenham_line_oob_start (x0 y0 : ℤ) (d az : ℝ) (rows cols : ℤ)
    (h : ¬(0 ≤ x0 ∧ x0 < cols ∧ 0 ≤ y0 ∧ y0 < rows)) :
    draw_bresenham_line x0 y0 d az rows cols = [] := by
  unfold draw_bresenham_line
  exact bresLoop_out_of_bounds _ _ _ _ _ _ _ _ _ _ _ _ h

/-- Sign-and-distance normalisation used at loop entry. -/
theorem bres_sign_mul (x0 x1 : ℤ) :
    (if x0 < x1 then (1 : ℤ) else -1) * (x1 - x0) = |x1 - x0| := by
  by_cases h : x0 < x1
  · rw [if_pos h, abs_of_pos (by omega)]; ring
  · rw [if_neg h, abs_of_nonpos (by omega)]; ring

/-- The fuel chosen in `draw_bresenham_line` is immaterial: any fuel at
least `dx + dy + 1` produces the same trace, so the fuel-indexed model
coincides with the source's unbounded `while True` loop. -/
theorem draw_bresenham_line_fuel_sufficient (x0 y0 : ℤ) (d az : ℝ)
    (rows cols : ℤ) (f : ℕ)
    (hf : (|(bresEndpoint x0 y0 d az).1 - x0| +
      |(bresEndpoint x0 y0 d az).2 - y0| + 1).toNat ≤ f) :
    bresLoop (bresEndpoint x0 y0 d az).1 (bresEndpoint x0 y0 d az).2
      (|(bresEndpoint x0 y0 d az).1 - x0|) (|(bresEndpoint x0 y0 d az).2 - y0|)
      (if x0 < (bresEndpoint x0 y0 d az).1 then 1 else -1)
      (if y0 < (bresEndpoint x0 y0 d az).2 then 1 else -1)
      rows cols f x0 y0
      (|(bresEndpoint x0 y0 d az).1 - x0| - |(bresEndpoint x0 y0 d az).2 - y0|) =
    draw_bresenham_line x0 y0 d az rows cols := by
  simp only [draw_bresenham_line]
  set x1 := (bresEndpoint x0 y0 d az).1 with hx1
  set y1 := (bresEndpoint x0 y0 d az).2 with hy1
  have hu0 : (if x0 < x1 then (1 : ℤ) else -1) * (x1 - x0) = |x1 - x0| :=
    bres_sign_mul x0 x1
  have hv0 : (if y0 < y1 then (1 : ℤ) else -1) * (y1 - y0) = |y1 - y0| :=
    bres_sign_mul y0 y1
  by_cases h0 : |x1 - x0| = 0 ∧ |y1 - y0| = 0
  · have hxx : x0 = x1 := by have := abs_eq_zero.mp h0.1; omega
    have hyy : y0 = y1 := by have := abs_eq_zero.mp h0.2; omega
    have hfuel : (|x1 - x0| + |y1 - y0| + 1).toNat = 1 := by omega
    rw [hfuel] at hf
    obtain ⟨g, rfl⟩ : ∃ g, f = g + 1 := ⟨f - 1, by omega⟩
    rw [hfuel, bresLoop, bresLoop]
    by_cases hin : 0 ≤ x0 ∧ x0 < cols ∧ 0 ≤ y0 ∧ y0 < rows
    · rw [if_pos hin, if_pos hin,
        if_pos (show x0 = x1 ∧ y0 = y1 from ⟨hxx, hyy⟩),
        if_pos (show x0 = x1 ∧ y0 = y1 from ⟨hxx, hyy⟩)]
    · rw [if_neg hin, if_neg hin]
  · have hband : (|y1 - y0| ≤ |x1 - x0| ∧
        -|y1 - y0| < 2 * (|x1 - x0| - |y1 - y0|)) ∨
        (|x1 - x0| < |y1 - y0| ∧
          2 * (|x1 - x0| - |y1 - y0|) < |x1 - x0|) := by
      rcases le_or_lt |y1 - y0| |x1 - x0| with h | h
      · left
        refine ⟨h, ?_⟩
        have := abs_nonneg (x1 - x0)
        have := abs_nonneg (y1 - y0)
        omega
      · right
        have h1 := abs_nonneg (x1 - x0)
        exact ⟨h, by omega⟩
    have hD : |x1 - x0| - |y1 - y0| =
        |x1 - x0| - |y1 - y0| +
          (if x0 < x1 then (1 : ℤ) else -1) * (x1 - x0) * |y1 - y0| -
          (if y0 < y1 then (1 : ℤ) else -1) * (y1 - y0) * |x1 - x0| := by
      rw [hu0, hv0]; ring
    apply bresLoop_fuel_irrelevant x1 y1 |x1 - x0| |y1 - y0|
      (if x0 < x1 then (1 : ℤ) else -1) (if y0 < y1 then (1 : ℤ) else -1)
      rows cols (abs_nonneg _) (abs_nonneg _)
      (by split <;> simp) (by split <;> simp)
      f x0 y0 (|x1 - x0| - |y1 - y0|) (|x1 - x0| + |y1 - y0| + 1).toNat
      hD (by rw [hu0]; exact abs_nonneg _) (by rw [hv0]; exact abs_nonneg _) hband
    · rw [hu0, hv0]
      have h1 := abs_nonneg (x1 - x0)
      have h2 := abs_nonneg (y1 - y0)
      omega
    · rw [hu0, hv0]
      have h1 := abs_nonneg (x1 - x0)
      have h2 := abs_nonneg (y1 - y0)
      omega

/-- The trace never holds more than `max dx dy + 1` pixels, where `dx`, `dy`
are the absolute coordinate offsets of the computed endpoint. -/
theorem draw_bresenham_line_length_le_max (x0 y0 : ℤ) (d az : ℝ) (rows cols : ℤ) :
    ((draw_bresenham_line x0 y0 d az rows cols).length : ℤ) ≤
      max |(bresEndpoint x0 y0 d az).1 - x0| |(bresEndpoint x0 y0 d az).2 - y0| + 1 := by
  simp only [draw_bresenham_line]
  set x1 := (bresEndpoint x0 y0 d az).1 with hx1
  set y1 := (bresEndpoint x0 y0 d az).2 with hy1
  have hu0 : (if x0 < x1 then (1 : ℤ) else -1) * (x1 - x0) = |x1 - x0| :=
    bres_sign_mul x0 x1
  have hv0 : (if y0 < y1 then (1 : ℤ) else -1) * (y1 - y0) = |y1 - y0| :=
    bres_sign_mul y0 y1
  by_cases h0 : |x1 - x0| = 0 ∧ |y1 - y0| = 0
  · have hfuel : (|x1 - x0| + |y1 - y0| + 1).toNat = 1 := by omega
    have hxx : x0 = x1 := by have := abs_eq_zero.mp h0.1; omega
    have hyy : y0 = y1 := by have := abs_eq_zero.mp h0.2; omega
    rw [hfuel, bresLoop]
    by_cases hin : 0 ≤ x0 ∧ x0 < cols ∧ 0 ≤ y0 ∧ y0 < rows
    · rw [if_pos hin, if_pos (show x0 = x1 ∧ y0 = y1 from ⟨hxx, hyy⟩)]
      simp only [List.length_cons, List.length_nil]
      have := abs_nonneg (x1 - x0)
      have h1 : (0 : ℤ) ≤ max |x1 - x0| |y1 - y0| := le_max_of_le_left this
      push_cast
      linarith
    · rw [if_neg hin]
      simp only [List.length_nil]
      have h1 : (0 : ℤ) ≤ max |x1 - x0| |y1 - y0| :=
        le_max_of_le_left (abs_nonneg _)
      push_cast
      linarith
  · have hband : (|y1 - y0| ≤ |x1 - x0| ∧
        -|y1 - y0| < 2 * (|x1 - x0| - |y1 - y0|)) ∨
        (|x1 - x0| < |y1 - y0| ∧
          2 * (|x1 - x0| - |y1 - y0|) < |x1 - x0|) := by
      rcases le_or_lt |y1 - y0| |x1 - x0| with h | h
      · left
        refine ⟨h, ?_⟩
        have := abs_nonneg (x1 - x0)
        have := abs_nonneg (y1 - y0)
        omega
      · right
        have h1 := abs_nonneg (x1 - x0)
        exact ⟨h, by omega⟩
    have hD : |x1 - x0| - |y1 - y0| =
        |x1 - x0| - |y1 - y0| +
          (if x0 < x1 then (1 : ℤ) else -1) * (x1 - x0) * |y1 - y0| -
          (if y0 < y1 then (1 : ℤ) else -1) * (y1 - y0) * |x1 - x0| := by
      rw [hu0, hv0]; ring
    have := bresLoop_length_le x1 y1 |x1 - x0| |y1 - y0|
      (if x0 < x1 then (1 : ℤ) else -1) (if y0 < y1 then (1 : ℤ) else -1)
      rows cols (abs_nonneg _) (abs_nonneg _)
      (by split <;> simp) (by split <;> simp)
      (|x1 - x0| + |y1 - y0| + 1).toNat x0 y0 (|x1 - x0| - |y1 - y0|)
      hD (by rw [hu0]; exact abs_nonneg _) (by rw [hv0]; exact abs_nonneg _) hband
    rw [hu0, hv0] at this
    exact this

/-- The endpoint offsets are bounded by an integer cap on the trace radius. -/
theorem bresEndpoint_offset_le (x0 y0 : ℤ) (m : ℕ) (az : ℝ) :
    |(bresEndpoint x0 y0 (m : ℝ) az).1 - x0| ≤ (m : ℤ) ∧
      |(bresEndpoint x0 y0 (m : ℝ) az).2 - y0| ≤ (m : ℤ) := by
  constructor
  · have h : |(m : ℝ) * Real.sin az| ≤ (((m : ℤ) : ℝ)) := by
      rw [abs_mul, abs_of_nonneg (by positivity : (0:ℝ) ≤ (m : ℝ))]
      push_cast
      nlinarith [Real.abs_sin_le_one az, Real.sin_le_one az,
        abs_nonneg (Real.sin az), Nat.cast_nonneg (α := ℝ) m]
    exact abs_intTrunc_int_add_le x0 (m : ℤ) _ h
  · have hrw : (y0 : ℝ) - (m : ℝ) * Real.cos az =
        (y0 : ℝ) + (-((m : ℝ) * Real.cos az)) := by ring
    have h : |(-((m : ℝ) * Real.cos az))| ≤ (((m : ℤ) : ℝ)) := by
      rw [abs_neg, abs_mul, abs_of_nonneg (by positivity : (0:ℝ) ≤ (m : ℝ))]
      push_cast
      nlinarith [Real.abs_cos_le_one az, abs_nonneg (Real.cos az),
        Nat.cast_nonneg (α := ℝ) m]
    have := abs_intTrunc_int_add_le y0 (m : ℤ) (-((m : ℝ) * Real.cos az)) h
    unfold bresEndpoint
    rw [hrw]
    exact this

/-- For an integer trace radius the trace holds at most `m + 1` pixels. -/
theorem draw_bresenham_line_length_le (x0 y0 : ℤ) (m : ℕ) (az : ℝ)
    (rows cols : ℤ) :
    (draw_bresenham_line x0 y0 (m : ℝ) az rows cols).length ≤ m + 1 := by
  have h1 := draw_bresenham_line_length_le_max x0 y0 (m : ℝ) az rows cols
  obtain ⟨h2, h3⟩ := bresEndpoint_offset_le x0 y0 m az
  have : ((draw_bresenham_line x0 y0 (m : ℝ) az rows cols).length : ℤ) ≤
      (m : ℤ) + 1 := le_trans h1 (by omega)
  exact_mod_cast this

/-! ## Data model (`TrailPoint`, raster state of `ShadowCalculator`) -/

/-- A trail point as consumed by `calculate_shadows`: projected coordinates,
elevation, and the already-computed solar position `(elevation, azimuth)`. -/
structure TrailPoint where
  x : ℝ
  y : ℝ
  z : ℝ
  solar_elevation : ℝ
  solar_azimuth : ℝ

/-- One MNS raster as held by `ShadowCalculator`: the geotransform entries
actually read (`gt[0]`, `gt[1]`, `gt[3]`, `gt[5]`; the resolution is `gt[1]`),
the height data indexed `data row col` (numpy `data[y, x]`), and dimensions. -/
structure Raster where
  gt0 : ℝ
  gt1 : ℝ
  gt3 : ℝ
  gt5 : ℝ
  data : ℤ → ℤ → ℝ
  rows : ℤ
  cols : ℤ

/-- `ShadowCalculator._to_pixel`: `col = int((x-gt[0])/gt[1])`,
`row = int((y-gt[3])/gt[5])`. -/
noncomputable def toPixel (gt0 gt1 gt3 gt5 x y : ℝ) : ℤ × ℤ :=
  (intTrunc ((x - gt0) / gt1), intTrunc ((y - gt3) / gt5))

/-- The boundary test `0 <= col < cols and 0 <= row < rows`. -/
def inBoundsP (cols rows c r : ℤ) : Prop :=
  0 ≤ c ∧ c < cols ∧ 0 ≤ r ∧ r < rows

instance inBoundsP.instDec (cols rows c r : ℤ) : Decidable (inBoundsP cols rows c r) :=
  inferInstanceAs (Decidable (0 ≤ c ∧ c < cols ∧ 0 ≤ r ∧ r < rows))

/-! ## `ShadowCalculator.calc_angle` -/

/-- Squared Euclidean pixel distance, as in
`(x - start_x)**2 + (y - start_y)**2`. -/
def distSq (start_px p : ℤ × ℤ) : ℤ :=
  (p.1 - start_px.1) ^ 2 + (p.2 - start_px.2) ^ 2

/-- Pixel distance converted to meters: `sqrt(dist_sq) * resolution`. -/
noncomputable def distM (start_px p : ℤ × ℤ) (resolution : ℝ) : ℝ :=
  Real.sqrt ((distSq start_px p : ℤ) : ℝ) * resolution

open Classical in
/-- `ShadowCalculator.calc_angle`.  The numpy boolean masks become list
filters (the source's early returns on an empty mask coincide with letting
the empty list flow through the remaining stages, which all map `[]` to
`[]`).  Returns the candidate obstruction angles and the distance, in
meters, of the last traced pixel. -/
noncomputable def calc_angle (z : ℝ) (index_list : List (ℤ × ℤ))
    (start_px : ℤ × ℤ) (mns : ℤ → ℤ → ℝ) (resolution : ℝ) (min_dist_m : ℝ) :
    List ℝ × ℝ :=
  match index_list.getLast? with
  | none => ([], 0)
  | some lastp =>
    let max_dist := Real.sqrt ((distSq start_px lastp : ℤ) : ℝ) * resolution
    let h_viewer := z + 1.7
    let masked := index_list.filter fun p => decide (h_viewer < mns p.2 p.1)
    let positive := masked.filter fun p => decide (0 < distSq start_px p)
    let kept :=
      if 0 < min_dist_m then
        positive.filter fun p => decide (min_dist_m < distM start_px p resolution)
      else positive
    (kept.map fun p =>
        Real.arctan ((mns p.2 p.1 - h_viewer) / distM start_px p resolution),
      max_dist)

/-! ## `ShadowCalculator.calculate_shadows` -/

/-- Pixel radius for a raster: `int(max_dist_m / resolution)`. -/
noncomputable def rasterMaxPx (ras : Raster) (max_dist_m : ℝ) : ℤ :=
  intTrunc (max_dist_m / ras.gt1)

/-- The trail point's pixel in a raster. -/
noncomputable def rasterStart (ras : Raster) (tp : TrailPoint) : ℤ × ℤ :=
  toPixel ras.gt0 ras.gt1 ras.gt3 ras.gt5 tp.x tp.y

/-- The traced ray on one raster: empty when the point's pixel fails the
boundary check (the source skips the raster entirely). -/
noncomputable def rasterTrace (ras : Raster) (maxPx : ℤ) (tp : TrailPoint) :
    List (ℤ × ℤ) :=
  if inBoundsP ras.cols ras.rows (rasterStart ras tp).1 (rasterStart ras tp).2 then
    draw_bresenham_line (rasterStart ras tp).1 (rasterStart ras tp).2 (maxPx : ℝ)
      tp.solar_azimuth ras.rows ras.cols
  else []

/-- One raster scan: trace, then `calc_angle`.  On an out-of-bounds point the
trace is `[]` and `calc_angle` yields `([], 0)`, exactly the source's
unchanged `max_angle`/`covered_dist` state. -/
noncomputable def scanRaster (ras : Raster) (maxPx : ℤ) (tp : TrailPoint)
    (min_dist_m : ℝ) : List ℝ × ℝ :=
  calc_angle tp.z (rasterTrace ras maxPx tp) (rasterStart ras tp) ras.data
    ras.gt1 min_dist_m

/-- High-resolution phase of a point's evaluation (angles, covered dist). -/
noncomputable def highPhase (hi : Raster) (max_dist_m : ℝ) (tp : TrailPoint) :
    List ℝ × ℝ :=
  scanRaster hi (rasterMaxPx hi max_dist_m) tp 0

/-- Low-resolution phase: the high phase's covered distance becomes the
`min_dist_m` exclusion threshold. -/
noncomputable def lowPhase (hi low : Raster) (max_dist_m : ℝ) (tp : TrailPoint) :
    List ℝ × ℝ :=
  scanRaster low (rasterMaxPx low max_dist_m) tp (highPhase hi max_dist_m tp).2

/-- The high-resolution early exit:
`len(angles_rad) > 0 and np.max(angles_rad) > sun_elevation_rad`. -/
def earlyShadyHigh (hi : Raster) (max_dist_m : ℝ) (tp : TrailPoint) : Prop :=
  0 < (highPhase hi max_dist_m tp).1.length ∧
    ((tp.solar_elevation : WithBot ℝ) < (highPhase hi max_dist_m tp).1.maximum)

/-- `max_angle` after the high-resolution block (absent the early exit):
`-inf` is modelled by `⊥`. -/
noncomputable def maxAngleHigh (hi : Raster) (max_dist_m : ℝ) (tp : TrailPoint) :
    WithBot ℝ :=
  if 0 < (highPhase hi max_dist_m tp).1.length then
    (highPhase hi max_dist_m tp).1.maximum
  else ⊥

/-- `max_angle` after the low-resolution block. -/
noncomputable def maxAngleFinal (hi low : Raster) (max_dist_m : ℝ)
    (tp : TrailPoint) : WithBot ℝ :=
  if 0 < (lowPhase hi low max_dist_m tp).1.length ∧
      maxAngleHigh hi max_dist_m tp < (lowPhase hi low max_dist_m tp).1.maximum
  then (lowPhase hi low max_dist_m tp).1.maximum
  else maxAngleHigh hi max_dist_m tp

open Classical in
/-- The per-point body of `calculate_shadows`: night check, high-resolution
scan with early exit, low-resolution scan, final comparison. -/
noncomputable def shadowFlagPoint (hi low : Raster) (max_dist_m : ℝ)
    (tp : TrailPoint) : ℕ :=
  if tp.solar_elevation < 0 then 1
  else if earlyShadyHigh hi max_dist_m tp then 1
  else if (tp.solar_elevation : WithBot ℝ) < maxAngleFinal hi low max_dist_m tp
  then 1
  else 0

/-- `ShadowCalculator.calculate_shadows`: one flag (0 sunny / 1 shady) per
trail point, in order. -/
noncomputable def calculate_shadows (hi low : Raster) (trail_points : List TrailPoint)
    (max_dist_m : ℝ) : List ℕ :=
  trail_points.map (shadowFlagPoint hi low max_dist_m)

/-! ## `TrailPoint.calc_solar_pos` (fallback formula, pvlib unavailable) -/

/-- The fallback solar-position formula of `TrailPoint.calc_solar_pos`
(trail_point.py lines 45-90), for a UTC instant given as ordinal day of year
and clock time.  Returns `(elevation_rad, azimuth_rad)`. -/
noncomputable def calc_solar_pos (lat lon : ℝ) (day_of_year hour minute second : ℕ) :
    ℝ × ℝ :=
  let hour_decimal : ℝ := (hour : ℝ) + (minute : ℝ) / 60 + (second : ℝ) / 3600
  let gamma : ℝ := (2 * π / 365) * ((day_of_year : ℝ) - 1 + (hour_decimal - 12) / 24)
  let eqtime : ℝ := 229.18 * (0.000075 + 0.001868 * Real.cos gamma
    - 0.032077 * Real.sin gamma
    - 0.014615 * Real.cos (2 * gamma) - 0.040849 * Real.sin (2 * gamma))
  let decl : ℝ := 0.006918 - 0.399912 * Real.cos gamma + 0.070257 * Real.sin gamma
    - 0.006758 * Real.cos (2 * gamma) + 0.000907 * Real.sin (2 * gamma)
    - 0.002697 * Real.cos (3 * gamma) + 0.00148 * Real.sin (3 * gamma)
  let time_offset := eqtime + 4 * lon
  let tst := hour_decimal * 60 + time_offset
  let ha_deg := tst / 4 - 180
  let ha_rad := ha_deg * π / 180
  let lat_rad := lat * π / 180
  let sin_elev := Real.sin lat_rad * Real.sin decl
    + Real.cos lat_rad * Real.cos decl * Real.cos ha_rad
  let elevation_rad := Real.arcsin (max (-1) (min 1 sin_elev))
  let xx := -Real.cos ha_rad * Real.sin lat_rad * Real.cos decl
    + Real.sin decl * Real.cos lat_rad
  let yy := -Real.sin ha_rad * Real.cos decl
  let azimuth_rad := atan2 yy xx
  (elevation_rad, pymod (azimuth_rad + 2 * π) (2 * π))

/-- The §4.1 algorithm of the specification, written step by step in the
spec's own order, to be compared with the source-derived `calc_solar_pos`. -/
noncomputable def calc_solar_pos_spec (lat lon : ℝ)
    (day_of_year hour minute second : ℕ) : ℝ × ℝ :=
  let hour_decimal : ℝ := (hour : ℝ) + (minute : ℝ) / 60 + (second : ℝ) / 3600
  let gamma : ℝ := (2 * π / 365) * ((day_of_year : ℝ) - 1 + (hour_decimal - 12) / 24)
  let eqtime : ℝ := 229.18 * (0.000075 + 0.001868 * Real.cos gamma
    - 0.032077 * Real.sin gamma
    - 0.014615 * Real.cos (2 * gamma) - 0.040849 * Real.sin (2 * gamma))
  let decl : ℝ := 0.006918 - 0.399912 * Real.cos gamma + 0.070257 * Real.sin gamma
    - 0.006758 * Real.cos (2 * gamma) + 0.000907 * Real.sin (2 * gamma)
    - 0.002697 * Real.cos (3 * gamma) + 0.00148 * Real.sin (3 * gamma)
  let tst := hour_decimal * 60 + eqtime + 4 * lon
  let ha := (tst / 4 - 180) * π / 180
  let lat_rad := lat * π / 180
  let sin_elev := Real.sin lat_rad * Real.sin decl
    + Real.cos lat_rad * Real.cos decl * Real.cos ha
  let elevation := Real.arcsin (max (-1) (min 1 sin_elev))
  let xx := -Real.cos ha * Real.sin lat_rad * Real.cos decl
    + Real.sin decl * Real.cos lat_rad
  let yy := -Real.sin ha * Real.cos decl
  (elevation, pymod (atan2 yy xx + 2 * π) (2 * π))

/-! ### Properties of `calc_angle` -/

theorem calc_angle_nil (z : ℝ) (s : ℤ × ℤ) (mns : ℤ → ℤ → ℝ) (res md : ℝ) :
    calc_angle z [] s mns res md = ([], 0) := rfl

theorem calc_angle_snd_of_getLast (z : ℝ) (l : List (ℤ × ℤ)) (s p : ℤ × ℤ)
    (mns : ℤ → ℤ → ℝ) (res md : ℝ) (h : l.getLast? = some p) :
    (calc_angle z l s mns res md).2 = Real.sqrt ((distSq s p : ℤ) : ℝ) * res := by
  unfold calc_angle
  rw [h]

theorem calc_angle_snd_of_nil (z : ℝ) (l : List (ℤ × ℤ)) (s : ℤ × ℤ)
    (mns : ℤ → ℤ → ℝ) (res md : ℝ) (h : l.getLast? = none) :
    (calc_angle z l s mns res md).2 = 0 := by
  unfold calc_angle
  rw [h]

/-- Every returned angle arises from a traced pixel that is strictly higher
than the viewer, at strictly positive pixel distance, and (when the overlap
threshold is positive) strictly beyond the overlap threshold. -/
theorem calc_angle_mem_fst (z : ℝ) (l : List (ℤ × ℤ)) (s : ℤ × ℤ)
    (mns : ℤ → ℤ → ℝ) (res md : ℝ) (a : ℝ)
    (h : a ∈ (calc_angle z l s mns res md).1) :
    ∃ p ∈ l, z + 1.7 < mns p.2 p.1 ∧ 0 < distSq s p ∧
      (0 < md → md < distM s p res) ∧
      a = Real.arctan ((mns p.2 p.1 - (z + 1.7)) / distM s p res) := by
  unfold calc_angle at h
  rcases hl : l.getLast? with _ | q
  · rw [hl] at h
    simp at h
  · rw [hl] at h
    simp only [List.mem_map] at h
    obtain ⟨p, hp, ha⟩ := h
    by_cases hmd : 0 < md
    · rw [if_pos hmd] at hp
      simp only [List.mem_filter, decide_eq_true_eq] at hp
      exact ⟨p, hp.1.1.1, hp.1.1.2, hp.1.2, fun _ => hp.2, by rw [← ha]⟩
    · rw [if_neg hmd] at hp
      simp only [List.mem_filter, decide_eq_true_eq] at hp
      exact ⟨p, hp.1.1, hp.1.2, hp.2, fun h' => absurd h' hmd, by rw [← ha]⟩

/-- When no traced pixel tops the viewer, no angle is produced. -/
theorem calc_angle_fst_nil (z : ℝ) (l : List (ℤ × ℤ)) (s : ℤ × ℤ)
    (mns : ℤ → ℤ → ℝ) (res md : ℝ)
    (h : ∀ p ∈ l, mns p.2 p.1 ≤ z + 1.7) :
    (calc_angle z l s mns res md).1 = [] := by
  unfold calc_angle
  rcases hl : l.getLast? with _ | q
  · rfl
  · have hmask : (l.filter fun p => decide (z + 1.7 < mns p.2 p.1)) = [] := by
      rw [List.filter_eq_nil_iff]
      intro p hp
      simpa using not_lt.mpr (h p hp)
    simp only [hmask, List.filter_nil]
    split <;> simp

/-! ### Behaviour of the per-point evaluation -/

theorem shadowFlagPoint_night (hi low : Raster) (d : ℝ) (tp : TrailPoint)
    (h : tp.solar_elevation < 0) : shadowFlagPoint hi low d tp = 1 := by
  unfold shadowFlagPoint
  rw [if_pos h]

theorem shadowFlagPoint_day (hi low : Raster) (d : ℝ) (tp : TrailPoint)
    (h : ¬tp.solar_elevation < 0) (h2 : ¬earlyShadyHigh hi d tp) :
    shadowFlagPoint hi low d tp =
      if (tp.solar_elevation : WithBot ℝ) < maxAngleFinal hi low d tp then 1
      else 0 := by
  unfold shadowFlagPoint
  rw [if_neg h, if_neg h2]

theorem highPhase_oob (hi : Raster) (d : ℝ) (tp : TrailPoint)
    (h : ¬inBoundsP hi.cols hi.rows (rasterStart hi tp).1 (rasterStart hi tp).2) :
    highPhase hi d tp = ([], 0) := by
  unfold highPhase scanRaster rasterTrace
  rw [if_neg h]
  exact calc_angle_nil _ _ _ _ _

theorem lowPhase_oob (hi low : Raster) (d : ℝ) (tp : TrailPoint)
    (h : ¬inBoundsP low.cols low.rows (rasterStart low tp).1 (rasterStart low tp).2) :
    lowPhase hi low d tp = ([], 0) := by
  unfold lowPhase scanRaster rasterTrace
  rw [if_neg h]
  exact calc_angle_nil _ _ _ _ _

theorem maxAngleHigh_of_no_angles (hi : Raster) (d : ℝ) (tp : TrailPoint)
    (h : (highPhase hi d tp).1 = []) : maxAngleHigh hi d tp = ⊥ := by
  unfold maxAngleHigh
  rw [h]
  simp

theorem maxAngleFinal_of_no_angles (hi low : Raster) (d : ℝ) (tp : TrailPoint)
    (hh : (highPhase hi d tp).1 = []) (hl : (lowPhase hi low d tp).1 = []) :
    maxAngleFinal hi low d tp = ⊥ := by
  unfold maxAngleFinal
  rw [hl, maxAngleHigh_of_no_angles hi d tp hh]
  simp

theorem not_earlyShadyHigh_of_no_angles (hi : Raster) (d : ℝ) (tp : TrailPoint)
    (h : (highPhase hi d tp).1 = []) : ¬earlyShadyHigh hi d tp := by
  unfold earlyShadyHigh
  rw [h]
  simp

/-! ## Concrete fixtures used to witness the theorems -/

/-- A 3×3 north-up raster of resolution 1 with all heights 0. -/
noncomputable def flatRaster : Raster where
  gt0 := 0
  gt1 := 1
  gt3 := 0
  gt5 := -1
  data := fun _ _ => 0
  rows := 3
  cols := 3

/-- A daytime point at the raster origin, sun due north at the horizon. -/
noncomputable def tpDay : TrailPoint where
  x := 0
  y := 0
  z := 0
  solar_elevation := 0
  solar_azimuth := 0

/-- A point with the sun below the horizon. -/
noncomputable def tpNight : TrailPoint where
  x := 0
  y := 0
  z := 0
  solar_elevation := -1
  solar_azimuth := 0

/-- A daytime point lying far outside `flatRaster`. -/
noncomputable def tpFar : TrailPoint where
  x := 100
  y := 0
  z := 0
  solar_elevation := 0
  solar_azimuth := 0

theorem intTrunc_zero : intTrunc 0 = 0 := by
  have := intTrunc_intCast 0
  push_cast at this
  exact this

theorem intTrunc_two : intTrunc 2 = 2 := by
  have := intTrunc_intCast 2
  push_cast at this
  exact this

theorem rasterStart_flat_tpDay : rasterStart flatRaster tpDay = (0, 0) := by
  unfold rasterStart toPixel flatRaster tpDay
  norm_num [intTrunc_zero]

theorem rasterStart_flat_tpFar : rasterStart flatRaster tpFar = (100, 0) := by
  unfold rasterStart toPixel flatRaster tpFar
  norm_num [intTrunc_zero]
  have := intTrunc_intCast 100
  push_cast at this
  exact this

theorem rasterMaxPx_flat_two : rasterMaxPx flatRaster 2 = 2 := by
  unfold rasterMaxPx flatRaster
  norm_num [intTrunc_two]

theorem bresEndpoint_eval_north : bresEndpoint 0 0 ((2 : ℤ) : ℝ) 0 = (0, -2) := by
  unfold bresEndpoint intTrunc
  norm_num [Real.sin_zero, Real.cos_zero]
  have : ((-2 : ℤ) : ℝ) = (-2 : ℝ) := by norm_num
  rw [← this, Int.ceil_intCast]

theorem draw_eval_north : draw_bresenham_line 0 0 ((2 : ℤ) : ℝ) 0 3 3 = [(0, 0)] := by
  simp only [draw_bresenham_line, bresEndpoint_eval_north]
  decide

theorem trace_flat_tpDay :
    rasterTrace flatRaster (rasterMaxPx flatRaster 2) tpDay = [(0, 0)] := by
  unfold rasterTrace
  rw [rasterStart_flat_tpDay, rasterMaxPx_flat_two]
  rw [if_pos (by show inBoundsP flatRaster.cols flatRaster.rows 0 0; unfold flatRaster inBoundsP; norm_num)]
  show draw_bresenham_line 0 0 ((2 : ℤ) : ℝ) 0 flatRaster.rows flatRaster.cols = _
  show draw_bresenham_line 0 0 ((2 : ℤ) : ℝ) 0 3 3 = _
  exact draw_eval_north

theorem highPhase_flat_tpDay : highPhase flatRaster 2 tpDay = ([], 0) := by
  unfold highPhase scanRaster
  rw [trace_flat_tpDay]
  have h1 : (calc_angle tpDay.z [(0, 0)] (rasterStart flatRaster tpDay)
      flatRaster.data flatRaster.gt1 0).1 = [] := by
    apply calc_angle_fst_nil
    intro p _
    show flatRaster.data p.2 p.1 ≤ tpDay.z + 1.7
    unfold flatRaster tpDay
    norm_num
  have h2 : (calc_angle tpDay.z [(0, 0)] (rasterStart flatRaster tpDay)
      flatRaster.data flatRaster.gt1 0).2 = 0 := by
    rw [calc_angle_snd_of_getLast tpDay.z [(0, 0)] (rasterStart flatRaster tpDay)
      (0, 0) flatRaster.data flatRaster.gt1 0 rfl]
    rw [rasterStart_flat_tpDay]
    unfold distSq flatRaster
    norm_num
  exact Prod.ext h1 h2

theorem lowPhase_flat_tpDay : lowPhase flatRaster flatRaster 2 tpDay = ([], 0) := by
  unfold lowPhase scanRaster
  rw [trace_flat_tpDay, highPhase_flat_tpDay]
  have h1 : (calc_angle tpDay.z [(0, 0)] (rasterStart flatRaster tpDay)
      flatRaster.data flatRaster.gt1 (0 : ℝ)).1 = [] := by
    apply calc_angle_fst_nil
    intro p _
    show flatRaster.data p.2 p.1 ≤ tpDay.z + 1.7
    unfold flatRaster tpDay
    norm_num
  have h2 : (calc_angle tpDay.z [(0, 0)] (rasterStart flatRaster tpDay)
      flatRaster.data flatRaster.gt1 (0 : ℝ)).2 = 0 := by
    rw [calc_angle_snd_of_getLast tpDay.z [(0, 0)] (rasterStart flatRaster tpDay)
      (0, 0) flatRaster.data flatRaster.gt1 _ rfl]
    rw [rasterStart_flat_tpDay]
    unfold distSq flatRaster
    norm_num
  exact Prod.ext h1 h2

/-! ## Claim theorems -/

/-- Claim C2: for a daytime point (elevation ≥ 0) not decided Shady by the
high-resolution early exit, the result is Shady (1) exactly when the running
maximum obstruction angle strictly exceeds the solar elevation; on exact
equality the result is Sunny (0). -/
theorem c2_final_strict_comparison (hi low : Raster) (d : ℝ) (tp : TrailPoint)
    (h : 0 ≤ tp.solar_elevation) (h2 : ¬earlyShadyHigh hi d tp) :
    (shadowFlagPoint hi low d tp = 1 ↔
      (tp.solar_elevation : WithBot ℝ) < maxAngleFinal hi low d tp) ∧
    (maxAngleFinal hi low d tp = (tp.solar_elevation : WithBot ℝ) →
      shadowFlagPoint hi low d tp = 0) := by
  have hn : ¬tp.solar_elevation < 0 := not_lt.mpr h
  constructor
  · rw [shadowFlagPoint_day hi low d tp hn h2]
    by_cases hlt : (tp.solar_elevation : WithBot ℝ) < maxAngleFinal hi low d tp
    · rw [if_pos hlt]
      simp [hlt]
    · rw [if_neg hlt]
      simp [hlt]
  · intro he
    rw [shadowFlagPoint_day hi low d tp hn h2, he]
    simp

/-- Witness for C2 at the flat fixture: the hypotheses hold and the
conclusion is obtained by applying the theorem there. -/
theorem c2_witness :
    (0 ≤ tpDay.solar_elevation) ∧ ¬earlyShadyHigh flatRaster 2 tpDay ∧
    ((shadowFlagPoint flatRaster flatRaster 2 tpDay = 1 ↔
      (tpDay.solar_elevation : WithBot ℝ) < maxAngleFinal flatRaster flatRaster 2 tpDay) ∧
    (maxAngleFinal flatRaster flatRaster 2 tpDay = (tpDay.solar_elevation : WithBot ℝ) →
      shadowFlagPoint flatRaster flatRaster 2 tpDay = 0)) := by
  have h1 : 0 ≤ tpDay.solar_elevation := by unfold tpDay; norm_num
  have h2 : ¬earlyShadyHigh flatRaster 2 tpDay :=
    not_earlyShadyHigh_of_no_angles flatRaster 2 tpDay (by rw [highPhase_flat_tpDay])
  exact ⟨h1, h2, c2_final_strict_comparison flatRaster flatRaster 2 tpDay h1 h2⟩

/-- Claim C3: a point with strictly negative solar elevation is reported
Shady (1), for every pair of rasters and every scan distance. -/
theorem c3_night_always_shady (hi low : Raster) (d : ℝ) (tp : TrailPoint)
    (h : tp.solar_elevation < 0) : shadowFlagPoint hi low d tp = 1 :=
  shadowFlagPoint_night hi low d tp h

/-- Witness for C3: the night fixture evaluates to Shady. -/
theorem c3_witness :
    tpNight.solar_elevation < 0 ∧
      shadowFlagPoint flatRaster flatRaster 2 tpNight = 1 := by
  have h : tpNight.solar_elevation < 0 := by unfold tpNight; norm_num
  exact ⟨h, c3_night_always_shady flatRaster flatRaster 2 tpNight h⟩

/-- Claim C4: a daytime point whose pixel lies outside both configured
rasters is reported Sunny (0); the evaluation is total, so no error can be
raised. -/
theorem c4_outside_all_rasters_sunny (hi low : Raster) (d : ℝ) (tp : TrailPoint)
    (h : 0 ≤ tp.solar_elevation)
    (hh : ¬inBoundsP hi.cols hi.rows (rasterStart hi tp).1 (rasterStart hi tp).2)
    (hl : ¬inBoundsP low.cols low.rows (rasterStart low tp).1 (rasterStart low tp).2) :
    shadowFlagPoint hi low d tp = 0 := by
  have hhp := highPhase_oob hi d tp hh
  have hlp := lowPhase_oob hi low d tp hl
  have h2 := not_earlyShadyHigh_of_no_angles hi d tp (by rw [hhp])
  rw [shadowFlagPoint_day hi low d tp (not_lt.mpr h) h2,
    maxAngleFinal_of_no_angles hi low d tp (by rw [hhp]) (by rw [hlp])]
  simp

/-- Witness for C4: a far-away point on the flat fixture resolves Sunny. -/
theorem c4_witness :
    (0 ≤ tpFar.solar_elevation) ∧
    ¬inBoundsP flatRaster.cols flatRaster.rows
      (rasterStart flatRaster tpFar).1 (rasterStart flatRaster tpFar).2 ∧
    shadowFlagPoint flatRaster flatRaster 2 tpFar = 0 := by
  have h : 0 ≤ tpFar.solar_elevation := by unfold tpFar; norm_num
  have hb : ¬inBoundsP flatRaster.cols flatRaster.rows
      (rasterStart flatRaster tpFar).1 (rasterStart flatRaster tpFar).2 := by
    rw [rasterStart_flat_tpFar]
    unfold inBoundsP flatRaster
    norm_num
  exact ⟨h, hb, c4_outside_all_rasters_sunny flatRaster flatRaster 2 tpFar h hb hb⟩

set_option maxHeartbeats 1000000 in
/-- Claim C7: the pvlib-free fallback of `calc_solar_pos` computes exactly
the specified formula; the clamped arcsine keeps the elevation in
[-π/2, π/2]; and the azimuth, `atan2` normalized by a positive float modulo,
lands in [0, 2π). -/
theorem c7_solar_fallback (lat lon : ℝ) (day_of_year hour minute second : ℕ) :
    calc_solar_pos lat lon day_of_year hour minute second =
      calc_solar_pos_spec lat lon day_of_year hour minute second ∧
    -(π / 2) ≤ (calc_solar_pos lat lon day_of_year hour minute second).1 ∧
    (calc_solar_pos lat lon day_of_year hour minute second).1 ≤ π / 2 ∧
    0 ≤ (calc_solar_pos lat lon day_of_year hour minute second).2 ∧
    (calc_solar_pos lat lon day_of_year hour minute second).2 < 2 * π := by
  have h2pi : (0 : ℝ) < 2 * π := by positivity
  refine ⟨?_, ?_, ?_, ?_, ?_⟩
  · unfold calc_solar_pos calc_solar_pos_spec
    dsimp only
    simp only [← add_assoc]
  · exact Real.neg_pi_div_two_le_arcsin _
  · exact Real.arcsin_le_pi_div_two _
  · exact (pymod_nonneg_lt _ _ h2pi).1
  · exact (pymod_nonneg_lt _ _ h2pi).2

theorem highPhase_snd_nonneg (hi : Raster) (d : ℝ) (tp : TrailPoint)
    (hhi : 0 ≤ hi.gt1) : 0 ≤ (highPhase hi d tp).2 := by
  unfold highPhase scanRaster
  rcases hl : (rasterTrace hi (rasterMaxPx hi d) tp).getLast? with _ | p
  · rw [calc_angle_snd_of_nil _ _ _ _ _ _ hl]
  · rw [calc_angle_snd_of_getLast _ _ _ _ _ _ _ hl]
    exact mul_nonneg (Real.sqrt_nonneg _) hhi

/-- Claim C1: during the coarse (low-resolution) scan, every produced angle
comes from a pixel strictly farther than `covered_dist`, and `covered_dist`
is exactly the pixel distance of the last pixel traced on the fine raster
times the fine resolution (or 0 when the fine raster was skipped or traced
nothing). -/
theorem c1_coarse_overlap_exclusion (hi low : Raster) (d : ℝ) (tp : TrailPoint)
    (hhi : 0 ≤ hi.gt1) (hlow : 0 < low.gt1) :
    (rasterTrace hi (rasterMaxPx hi d) tp = [] → (highPhase hi d tp).2 = 0) ∧
    (∀ p, (rasterTrace hi (rasterMaxPx hi d) tp).getLast? = some p →
      (highPhase hi d tp).2 =
        Real.sqrt ((distSq (rasterStart hi tp) p : ℤ) : ℝ) * hi.gt1) ∧
    (∀ a ∈ (lowPhase hi low d tp).1,
      ∃ q ∈ rasterTrace low (rasterMaxPx low d) tp,
        (highPhase hi d tp).2 < distM (rasterStart low tp) q low.gt1 ∧
        tp.z + 1.7 < low.data q.2 q.1) := by
  refine ⟨?_, ?_, ?_⟩
  · intro h
    unfold highPhase scanRaster
    rw [h, calc_angle_nil]
  · intro p hp
    unfold highPhase scanRaster
    exact calc_angle_snd_of_getLast _ _ _ _ _ _ _ hp
  · intro a ha
    unfold lowPhase scanRaster at ha
    obtain ⟨q, hqmem, hqh, hqpos, hqmd, _⟩ := calc_angle_mem_fst _ _ _ _ _ _ _ ha
    refine ⟨q, hqmem, ?_, hqh⟩
    have hcov0 : 0 ≤ (highPhase hi d tp).2 := highPhase_snd_nonneg hi d tp hhi
    rcases lt_or_eq_of_le hcov0 with h | h
    · exact hqmd h
    · rw [← h]
      unfold distM
      have hq : (0 : ℝ) < ((distSq (rasterStart low tp) q : ℤ) : ℝ) := by
        exact_mod_cast hqpos
      exact mul_pos (Real.sqrt_pos.mpr hq) hlow

/-- Witness for C1 at the flat fixture: the resolution hypotheses hold and
the covered distance equals the last traced pixel's distance. -/
theorem c1_witness :
    (0 ≤ flatRaster.gt1) ∧ (0 < flatRaster.gt1) ∧
    (highPhase flatRaster 2 tpDay).2 =
      Real.sqrt ((distSq (rasterStart flatRaster tpDay) (0, 0) : ℤ) : ℝ) *
        flatRaster.gt1 := by
  have h1 : 0 ≤ flatRaster.gt1 := by unfold flatRaster; norm_num
  have h2 : 0 < flatRaster.gt1 := by unfold flatRaster; norm_num
  refine ⟨h1, h2, ?_⟩
  exact (c1_coarse_overlap_exclusion flatRaster flatRaster 2 tpDay h1 h2).2.1 (0, 0)
    (by rw [trace_flat_tpDay]; rfl)

/-- Claim C10: an out-of-bounds start pixel produces the empty trace, and
every pixel the trace does produce (the start included) is in bounds, so the
height lookup over a trace can never index outside the raster. -/
theorem c10_trace_start_bounds (x0 y0 : ℤ) (d az : ℝ) (rows cols : ℤ) :
    (¬inBoundsP cols rows x0 y0 → draw_bresenham_line x0 y0 d az rows cols = []) ∧
    (∀ p ∈ draw_bresenham_line x0 y0 d az rows cols, inBoundsP cols rows p.1 p.2) := by
  constructor
  · intro h
    exact draw_bresenham_line_oob_start x0 y0 d az rows cols h
  · intro p hp
    exact draw_bresenham_line_mem_bounds x0 y0 d az rows cols p hp

/-- Witness for C10: a start pixel left of the raster yields no pixels. -/
theorem c10_witness :
    ¬inBoundsP 3 3 (-1) 0 ∧ draw_bresenham_line (-1) 0 ((2 : ℤ) : ℝ) 0 3 3 = [] := by
  have h : ¬inBoundsP 3 3 (-1) 0 := by decide
  exact ⟨h, (c10_trace_start_bounds (-1) 0 ((2 : ℤ) : ℝ) 0 3 3).1 h⟩

theorem intTrunc_of_nonneg (r : ℝ) (h : 0 ≤ r) : intTrunc r = ⌊r⌋ := if_pos h

theorem intTrunc_of_neg (r : ℝ) (h : r < 0) : intTrunc r = ⌈r⌉ :=
  if_neg (not_le.mpr h)

/-- Counterexample to C5 as stated: with the real radius 5.5 and the sun due
west, the trace from pixel (10, 0) on a 1×20 raster holds 7 pixels, more
than 5.5 + 1.  (`int(10 - 5.5) = 4`, so the endpoint offset is 6.) -/
theorem bresEndpoint_eval_c5 : bresEndpoint 10 0 (5.5) (-(π / 2)) = (4, 0) := by
  unfold bresEndpoint
  rw [Real.sin_neg, Real.cos_neg, Real.sin_pi_div_two, Real.cos_pi_div_two]
  have h1 : ((10 : ℤ) : ℝ) + 5.5 * -1 = 4.5 := by norm_num
  have h2 : ((0 : ℤ) : ℝ) - 5.5 * 0 = 0 := by norm_num
  rw [h1, h2, intTrunc_zero, intTrunc_of_nonneg _ (by norm_num)]
  have h45 : ⌊(4.5 : ℝ)⌋ = 4 := by
    rw [Int.floor_eq_iff]
    norm_num
  rw [h45]

theorem c5_counterexample :
    (0 : ℝ) ≤ 5.5 ∧
      ¬(((draw_bresenham_line 10 0 (5.5) (-(π / 2)) 1 20).length : ℝ) ≤ 5.5 + 1) := by
  refine ⟨by norm_num, ?_⟩
  have hlen : (draw_bresenham_line 10 0 (5.5) (-(π / 2)) 1 20).length = 7 := by
    simp only [draw_bresenham_line, bresEndpoint_eval_c5]
    decide
  rw [hlen]
  norm_num

/-- Claim C5 (amended): for an integer trace radius `m ≥ 0` — the only kind
the engine passes, `int(max_dist_m / res)` — every traced pixel lies in
`[0, cols) × [0, rows)` and the trace holds at most `m + 1` pixels.  (For a
non-integer real radius the length bound can be exceeded by the truncated
endpoint, as the counterexample shows.) -/
theorem c5_amended_bounds_and_length (x0 y0 : ℤ) (m : ℕ) (az : ℝ)
    (rows cols : ℤ) :
    (∀ p ∈ draw_bresenham_line x0 y0 (m : ℝ) az rows cols,
      0 ≤ p.1 ∧ p.1 < cols ∧ 0 ≤ p.2 ∧ p.2 < rows) ∧
    (draw_bresenham_line x0 y0 (m : ℝ) az rows cols).length ≤ m + 1 :=
  ⟨fun p hp => draw_bresenham_line_mem_bounds x0 y0 _ az rows cols p hp,
    draw_bresenham_line_length_le x0 y0 m az rows cols⟩

theorem c5_witness :
    ((0, 0) ∈ draw_bresenham_line 0 0 ((2 : ℕ) : ℝ) 0 3 3) ∧
    (0 ≤ (0 : ℤ) ∧ (0 : ℤ) < 3 ∧ 0 ≤ (0 : ℤ) ∧ (0 : ℤ) < 3) ∧
    (draw_bresenham_line 0 0 ((2 : ℕ) : ℝ) 0 3 3).length ≤ 2 + 1 := by
  have hcast : ((2 : ℕ) : ℝ) = ((2 : ℤ) : ℝ) := by norm_num
  have hmem : (0, 0) ∈ draw_bresenham_line 0 0 ((2 : ℕ) : ℝ) 0 3 3 := by
    rw [hcast, draw_eval_north]
    simp
  exact ⟨hmem, (c5_amended_bounds_and_length 0 0 2 0 3 3).1 (0, 0) hmem,
    (c5_amended_bounds_and_length 0 0 2 0 3 3).2⟩

/-- Counterexample to C6 as stated: for start (0,0), radius 3 and azimuth
π/3 the code's endpoint column is `int(3·sin(π/3)) = int(2.598...) = 2`,
while rounding to the nearest integer would give 3. -/
theorem c6_counterexample :
    ¬((bresEndpoint 0 0 3 (π / 3)).1 = 0 + round (3 * Real.sin (π / 3)) ∧
      (bresEndpoint 0 0 3 (π / 3)).2 = 0 - round (3 * Real.cos (π / 3))) := by
  have hs : Real.sin (π / 3) = Real.sqrt 3 / 2 := Real.sin_pi_div_three
  have h3 : Real.sqrt 3 ^ 2 = 3 := Real.sq_sqrt (by norm_num)
  have hnn : 0 ≤ Real.sqrt 3 := Real.sqrt_nonneg 3
  have hlb : (5 : ℝ) / 3 < Real.sqrt 3 := by nlinarith
  have hub : Real.sqrt 3 < 2 := by nlinarith
  have hval : (bresEndpoint 0 0 3 (π / 3)).1 = 2 := by
    show intTrunc (((0 : ℤ) : ℝ) + 3 * Real.sin (π / 3)) = 2
    rw [hs, intTrunc_of_nonneg _ (by positivity), Int.floor_eq_iff]
    constructor
    · push_cast
      nlinarith
    · push_cast
      nlinarith
  have hround : round (3 * Real.sin (π / 3)) = 3 := by
    rw [hs, round_eq, Int.floor_eq_iff]
    constructor
    · push_cast
      nlinarith
    · push_cast
      nlinarith
  rintro ⟨h1, _⟩
  rw [hval, hround] at h1
  norm_num at h1

/-- Claim C6 (amended): the endpoint is obtained by Python `int(...)`, i.e.
truncation toward zero of `start_col + max_dist·sin(azimuth)` and of
`start_row − max_dist·cos(azimuth)` (floor when the operand is nonnegative,
ceiling when it is negative), not rounding to nearest. -/
theorem c6_amended_endpoint_trunc (x0 y0 : ℤ) (d az : ℝ) :
    (0 ≤ (x0 : ℝ) + d * Real.sin az →
      (bresEndpoint x0 y0 d az).1 = ⌊(x0 : ℝ) + d * Real.sin az⌋) ∧
    ((x0 : ℝ) + d * Real.sin az < 0 →
      (bresEndpoint x0 y0 d az).1 = ⌈(x0 : ℝ) + d * Real.sin az⌉) ∧
    (0 ≤ (y0 : ℝ) - d * Real.cos az →
      (bresEndpoint x0 y0 d az).2 = ⌊(y0 : ℝ) - d * Real.cos az⌋) ∧
    ((y0 : ℝ) - d * Real.cos az < 0 →
      (bresEndpoint x0 y0 d az).2 = ⌈(y0 : ℝ) - d * Real.cos az⌉) :=
  ⟨fun h => intTrunc_of_nonneg _ h, fun h => intTrunc_of_neg _ h,
    fun h => intTrunc_of_nonneg _ h, fun h => intTrunc_of_neg _ h⟩

theorem c6_witness :
    (0 ≤ ((0 : ℤ) : ℝ) + 0 * Real.sin 0) ∧
    (bresEndpoint 0 0 0 0).1 = ⌊((0 : ℤ) : ℝ) + 0 * Real.sin 0⌋ := by
  have h : 0 ≤ ((0 : ℤ) : ℝ) + 0 * Real.sin 0 := by norm_num
  exact ⟨h, (c6_amended_endpoint_trunc 0 0 0 0).1 h⟩

/-- A raster of resolution 2 m/pixel, used to exhibit the truncation in
`int(max_dist_m / resolution)`. -/
noncomputable def coarseRaster : Raster where
  gt0 := 0
  gt1 := 2
  gt3 := 0
  gt5 := -2
  data := fun _ _ => 0
  rows := 3
  cols := 3

/-- The point evaluation depends on the scan distance only through the two
truncated per-raster pixel radii (one shared `max_dist_m` for both rasters). -/
theorem shadowFlagPoint_congr_px (hi low : Raster) (tp : TrailPoint) (d d' : ℝ)
    (h1 : rasterMaxPx hi d = rasterMaxPx hi d')
    (h2 : rasterMaxPx low d = rasterMaxPx low d') :
    shadowFlagPoint hi low d tp = shadowFlagPoint hi low d' tp := by
  have hhp : highPhase hi d tp = highPhase hi d' tp := by
    unfold highPhase
    rw [h1]
  have hlp : lowPhase hi low d tp = lowPhase hi low d' tp := by
    unfold lowPhase
    rw [h2, hhp]
  have hes : earlyShadyHigh hi d tp = earlyShadyHigh hi d' tp := by
    unfold earlyShadyHigh
    rw [hhp]
  have hmh : maxAngleHigh hi d tp = maxAngleHigh hi d' tp := by
    unfold maxAngleHigh
    rw [hhp]
  have hmf : maxAngleFinal hi low d tp = maxAngleFinal hi low d' tp := by
    unfold maxAngleFinal
    rw [hlp, hmh]
  unfold shadowFlagPoint
  simp only [hmf]
  by_cases hn : tp.solar_elevation < 0
  · simp only [if_pos hn]
  · simp only [if_neg hn]
    by_cases he : earlyShadyHigh hi d tp
    · have he' : earlyShadyHigh hi d' tp := hes ▸ he
      simp only [if_pos he, if_pos he']
    · have he' : ¬earlyShadyHigh hi d' tp := by
        rw [← hes]
        exact he
      simp only [if_neg he, if_neg he']

/-- Counterexample to C9 as stated: with `max_dist_m = 3` on the 2 m/pixel
raster, the code scans `int(3/2) = 1` pixel, not `3/2 = 1.5`. -/
theorem c9_counterexample :
    ¬(((rasterMaxPx coarseRaster 3 : ℤ) : ℝ) = 3 / coarseRaster.gt1) := by
  have h : rasterMaxPx coarseRaster 3 = 1 := by
    unfold rasterMaxPx coarseRaster
    norm_num
    rw [intTrunc_of_nonneg _ (by norm_num)]
    rw [Int.floor_eq_iff]
    norm_num
  rw [h]
  unfold coarseRaster
  norm_num

/-- Claim C9 (amended): each raster is scanned for
`int(max_dist_m / resolution)` pixels — truncated division, with one shared
`max_dist_m` for both rasters; the flag depends on `max_dist_m` only through
these two truncated pixel radii. -/
theorem c9_amended_truncated_shared_px (hi low : Raster) (tp : TrailPoint)
    (d d' : ℝ) (h1 : rasterMaxPx hi d = rasterMaxPx hi d')
    (h2 : rasterMaxPx low d = rasterMaxPx low d') :
    rasterMaxPx hi d = intTrunc (d / hi.gt1) ∧
    rasterMaxPx low d = intTrunc (d / low.gt1) ∧
    highPhase hi d tp = scanRaster hi (intTrunc (d / hi.gt1)) tp 0 ∧
    shadowFlagPoint hi low d tp = shadowFlagPoint hi low d' tp :=
  ⟨rfl, rfl, rfl, shadowFlagPoint_congr_px hi low tp d d' h1 h2⟩

theorem rasterMaxPx_flat_two_half : rasterMaxPx flatRaster 2.5 = 2 := by
  unfold rasterMaxPx flatRaster
  norm_num
  rw [intTrunc_of_nonneg _ (by norm_num)]
  rw [Int.floor_eq_iff]
  norm_num

theorem c9_witness :
    rasterMaxPx flatRaster 2 = rasterMaxPx flatRaster 2.5 ∧
    shadowFlagPoint flatRaster flatRaster 2 tpDay =
      shadowFlagPoint flatRaster flatRaster 2.5 tpDay := by
  have h : rasterMaxPx flatRaster 2 = rasterMaxPx flatRaster 2.5 := by
    rw [rasterMaxPx_flat_two, rasterMaxPx_flat_two_half]
  exact ⟨h,
    (c9_amended_truncated_shared_px flatRaster flatRaster tpDay 2 2.5 h h).2.2.2⟩

theorem intTrunc_eq_intCast (r : ℝ) (n : ℤ) (h : r = (n : ℝ)) : intTrunc r = n := by
  rw [h, intTrunc_intCast]

/-- Completeness counterpart of `calc_angle_mem_fst`: a traced pixel passing
all three filters contributes its angle to the output. -/
theorem calc_angle_mem_of (z : ℝ) (l : List (ℤ × ℤ)) (s : ℤ × ℤ)
    (mns : ℤ → ℤ → ℝ) (res md : ℝ) (p : ℤ × ℤ) (hp : p ∈ l)
    (hh : z + 1.7 < mns p.2 p.1) (hpos : 0 < distSq s p)
    (hmd : 0 < md → md < distM s p res) :
    Real.arctan ((mns p.2 p.1 - (z + 1.7)) / distM s p res) ∈
      (calc_angle z l s mns res md).1 := by
  unfold calc_angle
  obtain ⟨q, hq⟩ : ∃ q, l.getLast? = some q := by
    cases l with
    | nil => exact absurd hp (List.not_mem_nil p)
    | cons a as =>
      exact ⟨(a :: as).getLast (by simp), List.getLast?_eq_getLast _ (by simp)⟩
  rw [hq]
  apply List.mem_map.mpr
  refine ⟨p, ?_, rfl⟩
  by_cases h0 : 0 < md
  · rw [if_pos h0]
    refine List.mem_filter.mpr
      ⟨List.mem_filter.mpr ⟨List.mem_filter.mpr ⟨hp, ?_⟩, ?_⟩, ?_⟩
    · simpa using hh
    · simpa using hpos
    · simpa using hmd h0
  · rw [if_neg h0]
    refine List.mem_filter.mpr ⟨List.mem_filter.mpr ⟨hp, ?_⟩, ?_⟩
    · simpa using hh
    · simpa using hpos

theorem shadowFlagPoint_early (hi low : Raster) (d : ℝ) (tp : TrailPoint)
    (h : ¬tp.solar_elevation < 0) (he : earlyShadyHigh hi d tp) :
    shadowFlagPoint hi low d tp = 1 := by
  unfold shadowFlagPoint
  rw [if_neg h, if_pos he]

/-! ### Fixtures showing that distance monotonicity fails (C8)

The azimuth is `arcsin(3/5)`, whose sine and cosine are exactly 3/5 and
4/5; every quantity truncated below (7·3/5 = 4.2, 7·4/5 = 5.6, 9·3/5 = 5.4,
9·4/5 = 7.2) lies at least 0.2 away from an integer, so the double-precision
arithmetic of the source truncates to the same pixels as the exact reals. -/

/-- A 9×9 raster with a single tall obstacle at row 4, column 3. -/
noncomputable def diagRaster : Raster where
  gt0 := 0
  gt1 := 1
  gt3 := 8
  gt5 := -1
  data := fun r c => if r = 4 ∧ c = 3 then 10 else 0
  rows := 9
  cols := 9

/-- A 1×1 raster far away from the trail point (always out of bounds). -/
noncomputable def farLowRaster : Raster where
  gt0 := 100
  gt1 := 1
  gt3 := 0
  gt5 := -1
  data := fun _ _ => 0
  rows := 1
  cols := 1

/-- A daytime point at pixel (0, 8) of `diagRaster`, sun on the horizon at
azimuth `arcsin(3/5)`. -/
noncomputable def tpDiag : TrailPoint where
  x := 0
  y := 0
  z := 0
  solar_elevation := 0
  solar_azimuth := Real.arcsin (3 / 5)

theorem sin_az_diag : Real.sin (Real.arcsin (3 / 5)) = 3 / 5 :=
  Real.sin_arcsin (by norm_num) (by norm_num)

theorem cos_az_diag : Real.cos (Real.arcsin (3 / 5)) = 4 / 5 := by
  rw [Real.cos_arcsin]
  rw [show (1 : ℝ) - (3 / 5) ^ 2 = (4 / 5) ^ 2 by norm_num]
  exact Real.sqrt_sq (by norm_num)

theorem rasterStart_diag : rasterStart diagRaster tpDiag = (0, 8) := by
  unfold rasterStart toPixel diagRaster tpDiag
  norm_num
  constructor
  · exact intTrunc_eq_intCast _ 0 (by norm_num)
  · exact intTrunc_eq_intCast _ 8 (by norm_num)

theorem rasterStart_farLow_diag : rasterStart farLowRaster tpDiag = (-100, 0) := by
  unfold rasterStart toPixel farLowRaster tpDiag
  norm_num
  constructor
  · exact intTrunc_eq_intCast _ (-100) (by norm_num)
  · exact intTrunc_eq_intCast _ 0 (by norm_num)

theorem rasterMaxPx_diag_seven : rasterMaxPx diagRaster 7 = 7 := by
  unfold rasterMaxPx diagRaster
  exact intTrunc_eq_intCast _ 7 (by norm_num)

theorem rasterMaxPx_diag_nine : rasterMaxPx diagRaster 9 = 9 := by
  unfold rasterMaxPx diagRaster
  exact intTrunc_eq_intCast _ 9 (by norm_num)

theorem bresEndpoint_diag_seven :
    bresEndpoint 0 8 ((7 : ℤ) : ℝ) (Real.arcsin (3 / 5)) = (4, 2) := by
  unfold bresEndpoint
  rw [sin_az_diag, cos_az_diag]
  have h1 : ((0 : ℤ) : ℝ) + ((7 : ℤ) : ℝ) * (3 / 5) = 21 / 5 := by
    push_cast
    ring
  have h2 : ((8 : ℤ) : ℝ) - ((7 : ℤ) : ℝ) * (4 / 5) = 12 / 5 := by
    push_cast
    ring
  rw [h1, h2, intTrunc_of_nonneg _ (by norm_num), intTrunc_of_nonneg _ (by norm_num)]
  have hf1 : ⌊(21 / 5 : ℝ)⌋ = 4 := by
    rw [Int.floor_eq_iff]
    norm_num
  have hf2 : ⌊(12 / 5 : ℝ)⌋ = 2 := by
    rw [Int.floor_eq_iff]
    norm_num
  rw [hf1, hf2]

theorem bresEndpoint_diag_nine :
    bresEndpoint 0 8 ((9 : ℤ) : ℝ) (Real.arcsin (3 / 5)) = (5, 0) := by
  unfold bresEndpoint
  rw [sin_az_diag, cos_az_diag]
  have h1 : ((0 : ℤ) : ℝ) + ((9 : ℤ) : ℝ) * (3 / 5) = 27 / 5 := by
    push_cast
    ring
  have h2 : ((8 : ℤ) : ℝ) - ((9 : ℤ) : ℝ) * (4 / 5) = 4 / 5 := by
    push_cast
    ring
  rw [h1, h2, intTrunc_of_nonneg _ (by norm_num), intTrunc_of_nonneg _ (by norm_num)]
  have hf1 : ⌊(27 / 5 : ℝ)⌋ = 5 := by
    rw [Int.floor_eq_iff]
    norm_num
  have hf2 : ⌊(4 / 5 : ℝ)⌋ = 0 := by
    rw [Int.floor_eq_iff]
    norm_num
  rw [hf1, hf2]

theorem trace_diag_seven :
    rasterTrace diagRaster (rasterMaxPx diagRaster 7) tpDiag =
      [(0, 8), (1, 7), (1, 6), (2, 5), (3, 4), (3, 3), (4, 2)] := by
  unfold rasterTrace
  rw [rasterStart_diag, rasterMaxPx_diag_seven]
  rw [if_pos (by norm_num [inBoundsP, diagRaster])]
  show draw_bresenham_line 0 8 ((7 : ℤ) : ℝ) (Real.arcsin (3 / 5)) 9 9 = _
  simp only [draw_bresenham_line, bresEndpoint_diag_seven]
  decide

theorem trace_diag_nine :
    rasterTrace diagRaster (rasterMaxPx diagRaster 9) tpDiag =
      [(0, 8), (1, 7), (1, 6), (2, 5), (2, 4), (3, 3), (4, 2), (4, 1), (5, 0)] := by
  unfold rasterTrace
  rw [rasterStart_diag, rasterMaxPx_diag_nine]
  rw [if_pos (by norm_num [inBoundsP, diagRaster])]
  show draw_bresenham_line 0 8 ((9 : ℤ) : ℝ) (Real.arcsin (3 / 5)) 9 9 = _
  simp only [draw_bresenham_line, bresEndpoint_diag_nine]
  decide

theorem early_diag_seven : earlyShadyHigh diagRaster 7 tpDiag := by
  have hmem : Real.arctan ((diagRaster.data (4 : ℤ) (3 : ℤ) - (tpDiag.z + 1.7)) /
      distM (0, 8) (3, 4) diagRaster.gt1) ∈ (highPhase diagRaster 7 tpDiag).1 := by
    unfold highPhase scanRaster
    rw [rasterStart_diag, trace_diag_seven]
    refine calc_angle_mem_of _ _ _ _ _ _ (3, 4) ?_ ?_ ?_ ?_
    · decide
    · show tpDiag.z + 1.7 < diagRaster.data 4 3
      norm_num [tpDiag, diagRaster]
    · decide
    · intro h
      exact absurd h (by norm_num)
  have hx : 0 < (diagRaster.data (4 : ℤ) (3 : ℤ) - (tpDiag.z + 1.7)) /
      distM (0, 8) (3, 4) diagRaster.gt1 := by
    apply div_pos
    · norm_num [tpDiag, diagRaster]
    · unfold distM
      apply mul_pos
      · apply Real.sqrt_pos.mpr
        norm_num [distSq]
      · norm_num [diagRaster]
  have hpos : 0 < Real.arctan ((diagRaster.data (4 : ℤ) (3 : ℤ) - (tpDiag.z + 1.7)) /
      distM (0, 8) (3, 4) diagRaster.gt1) := by
    have h := Real.arctan_strictMono hx
    rwa [Real.arctan_zero] at h
  constructor
  · exact List.length_pos.mpr (List.ne_nil_of_mem hmem)
  · calc ((tpDiag.solar_elevation : WithBot ℝ))
        = ((0 : ℝ) : WithBot ℝ) := by norm_num [tpDiag]
      _ < _ := WithBot.coe_lt_coe.mpr hpos
      _ ≤ (highPhase diagRaster 7 tpDiag).1.maximum :=
        List.le_maximum_of_mem' hmem

theorem flag_diag_seven : shadowFlagPoint diagRaster farLowRaster 7 tpDiag = 1 :=
  shadowFlagPoint_early diagRaster farLowRaster 7 tpDiag
    (by norm_num [tpDiag]) early_diag_seven

theorem highPhase_diag_nine_nil : (highPhase diagRaster 9 tpDiag).1 = [] := by
  unfold highPhase scanRaster
  rw [trace_diag_nine]
  apply calc_angle_fst_nil
  intro p hp
  fin_cases hp <;> norm_num [diagRaster, tpDiag]

theorem lowPhase_diag_nine : lowPhase diagRaster farLowRaster 9 tpDiag = ([], 0) := by
  apply lowPhase_oob
  rw [rasterStart_farLow_diag]
  norm_num [inBoundsP, farLowRaster]

theorem flag_diag_nine : shadowFlagPoint diagRaster farLowRaster 9 tpDiag = 0 := by
  have hh := highPhase_diag_nine_nil
  have hl : (lowPhase diagRaster farLowRaster 9 tpDiag).1 = [] := by
    rw [lowPhase_diag_nine]
  rw [shadowFlagPoint_day _ _ _ _ (by norm_num [tpDiag])
      (not_earlyShadyHigh_of_no_angles _ _ _ hh),
    maxAngleFinal_of_no_angles _ _ _ _ hh hl]
  simp

/-- Counterexample to C8 as stated: enlarging the scan distance from 7 m to
9 m flips the verdict from Shady to Sunny, because the ray to the farther
truncated endpoint no longer rasterizes through the obstacle pixel (3, 4).
At azimuth `arcsin(3/5)` the sine and cosine are exactly 3/5 and 4/5 and all
truncations happen far from integer boundaries, so the source's float
arithmetic agrees pixel for pixel. -/
theorem c8_counterexample :
    ((7 : ℝ) ≤ 9) ∧ shadowFlagPoint diagRaster farLowRaster 7 tpDiag = 1 ∧
      shadowFlagPoint diagRaster farLowRaster 9 tpDiag = 0 :=
  ⟨by norm_num, flag_diag_seven, flag_diag_nine⟩

/-- Claim C8 (amended): a Shady verdict persists under a larger scan
distance whenever the two distances yield the same truncated pixel radius on
each raster (in general it need not persist: the rasterized ray to the
farther endpoint can miss obstruction pixels of the shorter ray, as the
counterexample shows). -/
theorem c8_amended_monotone_same_px (hi low : Raster) (tp : TrailPoint)
    (d1 d2 : ℝ) (hle : d1 ≤ d2)
    (h1 : rasterMaxPx hi d1 = rasterMaxPx hi d2)
    (h2 : rasterMaxPx low d1 = rasterMaxPx low d2)
    (hs : shadowFlagPoint hi low d1 tp = 1) :
    shadowFlagPoint hi low d2 tp = 1 := by
  rw [← shadowFlagPoint_congr_px hi low tp d1 d2 h1 h2]
  exact hs

theorem rasterMaxPx_diag_seven_half : rasterMaxPx diagRaster 7.5 = 7 := by
  unfold rasterMaxPx diagRaster
  norm_num
  rw [intTrunc_of_nonneg _ (by norm_num)]
  rw [Int.floor_eq_iff]
  norm_num

theorem rasterMaxPx_farLow_seven : rasterMaxPx farLowRaster 7 = 7 := by
  unfold rasterMaxPx farLowRaster
  exact intTrunc_eq_intCast _ 7 (by norm_num)

theorem rasterMaxPx_farLow_seven_half : rasterMaxPx farLowRaster 7.5 = 7 := by
  unfold rasterMaxPx farLowRaster
  norm_num
  rw [intTrunc_of_nonneg _ (by norm_num)]
  rw [Int.floor_eq_iff]
  norm_num

theorem c8_witness :
    ((7 : ℝ) ≤ 7.5) ∧
    rasterMaxPx diagRaster 7 = rasterMaxPx diagRaster 7.5 ∧
    rasterMaxPx farLowRaster 7 = rasterMaxPx farLowRaster 7.5 ∧
    shadowFlagPoint diagRaster farLowRaster 7 tpDiag = 1 ∧
    shadowFlagPoint diagRaster farLowRaster 7.5 tpDiag = 1 := by
  have hle : (7 : ℝ) ≤ 7.5 := by norm_num
  have h1 : rasterMaxPx diagRaster 7 = rasterMaxPx diagRaster 7.5 := by
    rw [rasterMaxPx_diag_seven, rasterMaxPx_diag_seven_half]
  have h2 : rasterMaxPx farLowRaster 7 = rasterMaxPx farLowRaster 7.5 := by
    rw [rasterMaxPx_farLow_seven, rasterMaxPx_farLow_seven_half]
  exact ⟨hle, h1, h2, flag_diag_seven,
    c8_amended_monotone_same_px diagRaster farLowRaster tpDiag 7 7.5 hle h1 h2
      flag_diag_seven⟩

end Marche
